import Mathlib

/-!
Verification of the recursive directory-tree printer in src/main.py.

The program is a single function:

    def print_directory_structure(startpath, indent=0):
        print('|' + '-' * indent + os.path.basename(os.path.abspath(startpath)))
        for item in sorted(os.listdir(startpath)):
            path = os.path.join(startpath, item)
            if os.path.basename(path).startswith('.'):
                continue
            if os.path.isdir(path):
                print_directory_structure(path, indent + 4)
            else:
                print('|' + '-' * (indent + 4) + item)

Shallow embedding used here:

* A directory tree is the inductive type Entry: a file with a name, or a
  directory with a name and the list of its entries.  The list order of a
  directory's children represents the order in which os.listdir happens to
  enumerate them (arbitrary); the code immediately sorts it.
* Python sorted() on strings is a stable sort by code-point-lexicographic
  order; sortedEntries realizes it as a stable insertion sort comparing
  the code-point lists of the names (Lean's Char carries the code point).
* item.startswith('.') is isHidden: the first character, if any, is a
  period.
* Standard output is modelled as the list of print calls, in order.  Every
  print call in the source has shape print('|' + '-' * k + name); such a
  call is recorded as the structured line OutLine.mk k name, rendered to
  its exact text by renderLine.  printEvents is the traversal producing
  the structured lines; print_directory_structure is the rendered text,
  line for line what the Python function writes to stdout.
* printEvents takes the directory's base name and its listing separately
  (the function is only ever applied to paths that list successfully; the
  header uses the base name, os.listdir yields the children).
  runOnPath models the whole call on a path that may fail to list:
  os.listdir either raises (None) or returns the entries; the header on
  source line 8 is printed before os.listdir on line 11 runs either way.
-/

namespace DirPrinter

/-- A filesystem entry: a file with its base name, or a directory with its
base name and the list of its children (in raw os.listdir order). -/
inductive Entry : Type where
  | file : String → Entry
  | dir : String → List Entry → Entry

/-- The base name of an entry. -/
def Entry.name : Entry → String
  | .file n => n
  | .dir n _ => n

/-- Comparison used by sorted(os.listdir(...)): names compared
lexicographically by code points (Python str order). -/
def entryLe (a b : Entry) : Prop := a.name.toList ≤ b.name.toList

/-- Strict version of entryLe, used to show sorting is canonical when
names are distinct. -/
def entryLt (a b : Entry) : Prop := a.name.toList < b.name.toList

instance : DecidableRel entryLe :=
  fun a b => inferInstanceAs (Decidable (a.name.toList ≤ b.name.toList))

instance : IsTotal Entry entryLe := ⟨fun a b => le_total a.name.toList b.name.toList⟩

instance : IsTrans Entry entryLe := ⟨fun _ _ _ h h2 => le_trans h h2⟩

instance : IsAntisymm Entry entryLt :=
  ⟨fun _ _ h h2 => absurd (lt_trans h h2) (lt_irrefl _)⟩

/-- sorted(os.listdir(startpath)): the children in sorted name order.
Python's sorted is a stable comparison sort; a stable insertion sort is
extensionally the same function. -/
def sortedEntries (cs : List Entry) : List Entry := cs.insertionSort entryLe

/-- os.path.basename(path).startswith('.'): the name's first character,
if any, is a period. -/
def isHidden (s : String) : Bool :=
  match s.toList with
  | [] => false
  | c :: _ => c == '.'

/-- One print call of the source: print('|' + '-' * indent + name) is
recorded as the pair of the dash count and the printed name. -/
structure OutLine where
  indent : Nat
  name : String
deriving DecidableEq

/-- The string '-' * n. -/
def dashes (n : Nat) : String := String.mk (List.replicate n '-')

/-- The exact text of a recorded print call: '|' + '-' * indent + name. -/
def renderLine (l : OutLine) : String := "|" ++ dashes l.indent ++ l.name

/-- The traversal of print_directory_structure applied to a directory with
base name name, children cs, at the given indent, as the list of its print
calls in order.  Line 8 prints the header; the loop on line 11 walks
sorted(os.listdir(..)), line 15 skips hidden entries, line 20 recurses
into directories with indent + 4, line 23 prints files at indent + 4. -/
def printEvents (name : String) (cs : List Entry) (indent : Nat) : List OutLine :=
  ⟨indent, name⟩ ::
    ((sortedEntries cs).attach.map (fun x =>
      if isHidden x.1.name then []
      else
        match x with
        | ⟨Entry.dir n ds, h⟩ => printEvents n ds (indent + 4)
        | ⟨Entry.file n, _⟩ => [⟨indent + 4, n⟩])).flatten
termination_by sizeOf cs
decreasing_by
  have h1 : Entry.dir n ds ∈ cs := (List.mem_insertionSort entryLe).mp h
  have h2 := List.sizeOf_lt_of_mem h1
  simp at h2 ⊢
  omega

/-- The lines contributed by one visible loop iteration (the body after
the hidden check): recurse for a directory, one line for a file. -/
def childBody (e : Entry) (indent : Nat) : List OutLine :=
  match e with
  | Entry.dir n ds => printEvents n ds (indent + 4)
  | Entry.file n => [⟨indent + 4, n⟩]

/-- The lines contributed by one loop iteration, hidden check included. -/
def childLines (e : Entry) (indent : Nat) : List OutLine :=
  if isHidden e.name then [] else childBody e indent

/-- The text written to standard output by
print_directory_structure(startpath, indent) when startpath is a readable
directory with base name name and entries cs. -/
def print_directory_structure (name : String) (cs : List Entry) (indent : Nat) : List String :=
  (printEvents name cs indent).map renderLine

/-- A whole call on a path that may fail to list.  listing is the outcome
of os.listdir(startpath): none when the path does not exist (the call
raises), some cs when it lists the entries cs.  The result is the lines
printed and whether an exception escaped.  The header print on source
line 8 runs before os.listdir on line 11, so it is printed in both cases. -/
def runOnPath (base : String) (listing : Option (List Entry)) (indent : Nat) :
    List String × Bool :=
  match listing with
  | none => (["|" ++ dashes indent ++ base], true)
  | some cs => (print_directory_structure base cs indent, false)

/-- The Tree Printer contract exactly as the specification words it:
print the base name prefixed with a bar and indent dashes, then for every
entry in sorted order that is not hidden, recurse with indent + 4 for a
directory and print the bar, indent + 4 dashes and the name for a file.
Written independently of printEvents (filter first, then branch) to be
compared with the implementation. -/
def specTreePrinter (name : String) (cs : List Entry) (indent : Nat) : List String :=
  ("|" ++ dashes indent ++ name) ::
    (((sortedEntries cs).filter (fun e => !isHidden e.name)).attach.map (fun x =>
      match x with
      | ⟨Entry.dir n ds, h⟩ => specTreePrinter n ds (indent + 4)
      | ⟨Entry.file n, _⟩ => ["|" ++ dashes (indent + 4) ++ n])).flatten
termination_by sizeOf cs
decreasing_by
  have h1 : Entry.dir n ds ∈ cs :=
    (List.mem_insertionSort entryLe).mp (List.mem_of_mem_filter h)
  have h2 := List.sizeOf_lt_of_mem h1
  simp at h2 ⊢
  omega

/-- The per-iteration lines of specTreePrinter, for an entry that passed
the hidden filter. -/
def specChild (e : Entry) (indent : Nat) : List String :=
  match e with
  | Entry.dir n ds => specTreePrinter n ds (indent + 4)
  | Entry.file n => ["|" ++ dashes (indent + 4) ++ n]

/-- The traversal annotated with nesting depth instead of indent: the
visited directory is at depth d, each child one level deeper.  Used to
state that the printed indent is always four times the depth. -/
def visitDepth (name : String) (cs : List Entry) (d : Nat) : List (Nat × String) :=
  (d, name) ::
    ((sortedEntries cs).attach.map (fun x =>
      if isHidden x.1.name then []
      else
        match x with
        | ⟨Entry.dir n ds, h⟩ => visitDepth n ds (d + 1)
        | ⟨Entry.file n, _⟩ => [(d + 1, n)])).flatten
termination_by sizeOf cs
decreasing_by
  have h1 : Entry.dir n ds ∈ cs := (List.mem_insertionSort entryLe).mp h
  have h2 := List.sizeOf_lt_of_mem h1
  simp at h2 ⊢
  omega

/-- Removes every hidden entry from a listing, together with its whole
subtree, and prunes the visible subdirectories recursively.  The traversal
never looks inside hidden entries, so printing the pruned listing gives
the same output. -/
def pruneList (cs : List Entry) : List Entry :=
  (cs.filter (fun e => !isHidden e.name)).attach.map (fun x =>
    match x with
    | ⟨Entry.file n, _⟩ => Entry.file n
    | ⟨Entry.dir n ds, h⟩ => Entry.dir n (pruneList ds))
termination_by sizeOf cs
decreasing_by
  have h1 : Entry.dir n ds ∈ cs := List.mem_of_mem_filter h
  have h2 := List.sizeOf_lt_of_mem h1
  simp at h2 ⊢
  omega

/-- Pruning of a single visible entry. -/
def pruneEntry : Entry → Entry
  | Entry.file n => Entry.file n
  | Entry.dir n ds => Entry.dir n (pruneList ds)

/-- Number of entries in a tree rooted at an entry, the entry itself
included. -/
def entryCount : Entry → Nat
  | Entry.file _ => 1
  | Entry.dir _ cs => 1 + (cs.attach.map (fun x => entryCount x.1)).sum
termination_by e => sizeOf e
decreasing_by
  have h2 := List.sizeOf_lt_of_mem x.2
  simp at h2 ⊢
  omega

mutual

/-- Two Entry values describe the same on-disk tree: equal names, and the
children listings are permutations of pointwise-same subtrees.  Two runs
of the program on one unchanged directory differ at most in the order
os.listdir happens to return each listing, which is exactly this
relation on the trees the runs observe. -/
inductive SameTree : Entry → Entry → Prop where
  | file (n : String) : SameTree (Entry.file n) (Entry.file n)
  | dir (n : String) (cs ds es : List Entry) :
      SameForest cs ds → ds.Perm es → SameTree (Entry.dir n cs) (Entry.dir n es)

/-- Pointwise SameTree on listings. -/
inductive SameForest : List Entry → List Entry → Prop where
  | nil : SameForest [] []
  | cons {a b : Entry} {l l2 : List Entry} :
      SameTree a b → SameForest l l2 → SameForest (a :: l) (b :: l2)

end

mutual

/-- Within every directory of the tree the children carry pairwise
distinct names, as on a real filesystem. -/
inductive UniqueNames : Entry → Prop where
  | file (n : String) : UniqueNames (Entry.file n)
  | dir (n : String) (cs : List Entry) :
      (cs.map Entry.name).Nodup → UniqueForest cs → UniqueNames (Entry.dir n cs)

/-- UniqueNames for every entry of a listing. -/
inductive UniqueForest : List Entry → Prop where
  | nil : UniqueForest []
  | cons {e : Entry} {l : List Entry} :
      UniqueNames e → UniqueForest l → UniqueForest (e :: l)

end

/-! ## Basic lemmas about the embedding -/

theorem sizeOf_children_lt {n : String} {ds cs : List Entry} (h : Entry.dir n ds ∈ cs) :
    sizeOf ds < sizeOf cs := by
  have h2 := List.sizeOf_lt_of_mem h
  simp at h2 ⊢
  omega

theorem mem_sortedEntries {e : Entry} {cs : List Entry} (h : e ∈ sortedEntries cs) : e ∈ cs :=
  (List.mem_insertionSort entryLe).mp h

theorem sortedEntries_perm (cs : List Entry) : (sortedEntries cs).Perm cs :=
  List.perm_insertionSort entryLe cs

theorem sortedEntries_pairwise (cs : List Entry) : (sortedEntries cs).Pairwise entryLe :=
  List.sorted_insertionSort entryLe cs

theorem childLines_file (n : String) (indent : Nat) :
    childLines (Entry.file n) indent = if isHidden n then [] else [⟨indent + 4, n⟩] := rfl

theorem childLines_dir (n : String) (ds : List Entry) (indent : Nat) :
    childLines (Entry.dir n ds) indent =
      if isHidden n then [] else printEvents n ds (indent + 4) := rfl

theorem printEvents_eq (name : String) (cs : List Entry) (indent : Nat) :
    printEvents name cs indent =
      ⟨indent, name⟩ :: ((sortedEntries cs).map (fun e => childLines e indent)).flatten := by
  rw [printEvents]
  congr 1
  congr 1
  rw [← List.attach_map_coe (sortedEntries cs) (fun e => childLines e indent)]
  apply List.map_congr_left
  rintro ⟨e, he⟩ _
  cases e <;> rfl

theorem specTreePrinter_eq (name : String) (cs : List Entry) (indent : Nat) :
    specTreePrinter name cs indent =
      ("|" ++ dashes indent ++ name) ::
        (((sortedEntries cs).filter (fun e => !isHidden e.name)).map
          (fun e => specChild e indent)).flatten := by
  rw [specTreePrinter]
  congr 1
  congr 1
  rw [← List.attach_map_coe ((sortedEntries cs).filter (fun e => !isHidden e.name))
    (fun e => specChild e indent)]
  apply List.map_congr_left
  rintro ⟨e, he⟩ _
  cases e <;> rfl

theorem visitDepth_eq (name : String) (cs : List Entry) (d : Nat) :
    visitDepth name cs d =
      (d, name) ::
        ((sortedEntries cs).map (fun e =>
          if isHidden e.name then []
          else
            match e with
            | Entry.dir n ds => visitDepth n ds (d + 1)
            | Entry.file n => [(d + 1, n)])).flatten := by
  rw [visitDepth]
  congr 1
  congr 1
  rw [← List.attach_map_coe (sortedEntries cs) (fun e =>
    if isHidden e.name then []
    else
      match e with
      | Entry.dir n ds => visitDepth n ds (d + 1)
      | Entry.file n => [(d + 1, n)])]
  apply List.map_congr_left
  rintro ⟨e, he⟩ _
  cases e <;> rfl

theorem pruneList_eq (cs : List Entry) :
    pruneList cs = (cs.filter (fun e => !isHidden e.name)).map pruneEntry := by
  rw [pruneList]
  rw [← List.attach_map_coe (cs.filter (fun e => !isHidden e.name)) pruneEntry]
  apply List.map_congr_left
  rintro ⟨e, he⟩ _
  cases e <;> rfl

theorem entryCount_dir (n : String) (cs : List Entry) :
    entryCount (Entry.dir n cs) = 1 + (cs.map entryCount).sum := by
  rw [entryCount]
  congr 1
  congr 1
  exact List.attach_map_coe cs entryCount

theorem entryCount_file (n : String) : entryCount (Entry.file n) = 1 := by
  rw [entryCount]

/-- Dropping the hidden iterations of a loop body is filtering the list
to its visible entries first. -/
theorem flatten_map_hidden_filter {β : Type} (l : List Entry) (g : Entry → List β) :
    (l.map (fun e => if isHidden e.name then [] else g e)).flatten
      = ((l.filter (fun e => !isHidden e.name)).map g).flatten := by
  induction l with
  | nil => rfl
  | cons e rest ih =>
    by_cases h : isHidden e.name
    · simp [h, ih]
    · simp [h, ih]

/-- Every line of a traversal either carries the root's name (the header)
or a name that is not hidden: the loop prints nothing for hidden
entries.  Strong induction on the size of the listing. -/
theorem printEvents_mem_name_aux :
    ∀ (sz : Nat) (cs : List Entry), sizeOf cs ≤ sz → ∀ (name : String) (indent : Nat)
      (l : OutLine), l ∈ printEvents name cs indent →
      l.name = name ∨ isHidden l.name = false := by
  intro sz
  induction sz using Nat.strong_induction_on with
  | _ sz ih =>
    intro cs hsz name indent l hl
    rw [printEvents_eq] at hl
    rcases List.mem_cons.mp hl with hl | hl
    · left
      rw [hl]
    · rcases List.mem_flatten.mp hl with ⟨b, hb, hlb⟩
      rcases List.mem_map.mp hb with ⟨e, he, hbe⟩
      subst hbe
      cases e with
      | file n =>
        rw [childLines_file] at hlb
        by_cases hh : isHidden n = true
        · rw [if_pos hh] at hlb
          exact absurd hlb (List.not_mem_nil l)
        · rw [if_neg hh] at hlb
          have hleq : l = ⟨indent + 4, n⟩ := List.mem_singleton.mp hlb
          right
          rw [hleq]
          simpa using hh
      | dir n ds =>
        rw [childLines_dir] at hlb
        by_cases hh : isHidden n = true
        · rw [if_pos hh] at hlb
          exact absurd hlb (List.not_mem_nil l)
        · rw [if_neg hh] at hlb
          have hres := ih (sizeOf ds)
            (Nat.lt_of_lt_of_le (sizeOf_children_lt (mem_sortedEntries he)) hsz)
            ds le_rfl n (indent + 4) l hlb
          rcases hres with hres | hres
          · right
            rw [hres]
            simpa using hh
          · right
            exact hres

/-- Every line after the header of a traversal at indent i has indent at
least i + 4: children print at i + 4 and deeper levels only add dashes. -/
theorem printEvents_tail_indent_aux :
    ∀ (sz : Nat) (cs : List Entry), sizeOf cs ≤ sz → ∀ (name : String) (indent : Nat)
      (l : OutLine), l ∈ (printEvents name cs indent).tail →
      indent + 4 ≤ l.indent := by
  intro sz
  induction sz using Nat.strong_induction_on with
  | _ sz ih =>
    intro cs hsz name indent l hl
    rw [printEvents_eq] at hl
    simp only [List.tail_cons] at hl
    rcases List.mem_flatten.mp hl with ⟨b, hb, hlb⟩
    rcases List.mem_map.mp hb with ⟨e, he, hbe⟩
    subst hbe
    cases e with
    | file n =>
      rw [childLines_file] at hlb
      by_cases hh : isHidden n = true
      · rw [if_pos hh] at hlb
        exact absurd hlb (List.not_mem_nil l)
      · rw [if_neg hh] at hlb
        have hleq : l = ⟨indent + 4, n⟩ := List.mem_singleton.mp hlb
        rw [hleq]
    | dir n ds =>
      rw [childLines_dir] at hlb
      by_cases hh : isHidden n = true
      · rw [if_pos hh] at hlb
        exact absurd hlb (List.not_mem_nil l)
      · rw [if_neg hh] at hlb
        rw [printEvents_eq] at hlb
        rcases List.mem_cons.mp hlb with hlb | hlb
        · rw [hlb]
        · have hres := ih (sizeOf ds)
            (Nat.lt_of_lt_of_le (sizeOf_children_lt (mem_sortedEntries he)) hsz)
            ds le_rfl n (indent + 4) l (by rw [printEvents_eq]; simpa using hlb)
          omega

theorem printEvents_mem_name (name : String) (cs : List Entry) (indent : Nat)
    (l : OutLine) (hl : l ∈ printEvents name cs indent) :
    l.name = name ∨ isHidden l.name = false :=
  printEvents_mem_name_aux (sizeOf cs) cs le_rfl name indent l hl

theorem printEvents_tail_indent (name : String) (cs : List Entry) (indent : Nat)
    (l : OutLine) (hl : l ∈ (printEvents name cs indent).tail) :
    indent + 4 ≤ l.indent :=
  printEvents_tail_indent_aux (sizeOf cs) cs le_rfl name indent l hl

/-! ## Claim theorems -/

/-- C2: no entry whose base name begins with a period ever appears in the
output of print_directory_structure, file or directory alike: every print
call after the root header carries a non-hidden name. -/
theorem hidden_entries_never_printed (name : String) (cs : List Entry) (indent : Nat)
    (l : OutLine) (h : l ∈ (printEvents name cs indent).tail) :
    isHidden l.name = false := by
  rw [printEvents_eq] at h
  simp only [List.tail_cons] at h
  rcases List.mem_flatten.mp h with ⟨b, hb, hlb⟩
  rcases List.mem_map.mp hb with ⟨e, he, hbe⟩
  subst hbe
  cases e with
  | file n =>
    rw [childLines_file] at hlb
    by_cases hh : isHidden n = true
    · rw [if_pos hh] at hlb
      exact absurd hlb (List.not_mem_nil l)
    · rw [if_neg hh] at hlb
      have hleq : l = ⟨indent + 4, n⟩ := List.mem_singleton.mp hlb
      rw [hleq]
      simpa using hh
  | dir n ds =>
    rw [childLines_dir] at hlb
    by_cases hh : isHidden n = true
    · rw [if_pos hh] at hlb
      exact absurd hlb (List.not_mem_nil l)
    · rw [if_neg hh] at hlb
      rcases printEvents_mem_name n ds (indent + 4) l hlb with hres | hres
      · rw [hres]
        simpa using hh
      · exact hres

/-- Witness for C2 on a listing holding a hidden file, a hidden directory
with a visible file inside, and one visible file: the only line after the
header is the visible file, and its name is not hidden. -/
theorem hidden_entries_never_printed_witness :
    (⟨4, "a.txt"⟩ : OutLine) ∈
      (printEvents "root"
        [Entry.file ".secret", Entry.dir ".git" [Entry.file "config"], Entry.file "a.txt"]
        0).tail ∧
    isHidden (OutLine.name ⟨4, "a.txt"⟩) = false :=
  ⟨by rw [printEvents_eq]; decide,
   hidden_entries_never_printed "root"
     [Entry.file ".secret", Entry.dir ".git" [Entry.file "config"], Entry.file "a.txt"]
     0 ⟨4, "a.txt"⟩ (by rw [printEvents_eq]; decide)⟩

/-- C5 counterexample: on a path that does not exist the call does raise,
but it does not produce "no output": the header line printed on source
line 8 precedes the os.listdir failure on line 11, so the claim as stated
is false at this input. -/
theorem missing_path_counterexample :
    ¬ ((runOnPath "missing" none 0).2 = true ∧ (runOnPath "missing" none 0).1 = []) := by
  decide

/-- C5 amended: a call on a nonexistent path raises (the error flag is
set) and its output is exactly one line, the root header, the same first
line a successful run on any listing would print. -/
theorem missing_path_raises_after_header (base : String) (indent : Nat) (cs : List Entry) :
    (runOnPath base none indent).2 = true ∧
    (runOnPath base none indent).1 = ["|" ++ dashes indent ++ base] ∧
    (runOnPath base none indent).1 = (print_directory_structure base cs indent).take 1 := by
  refine ⟨rfl, ?_, ?_⟩
  · rw [runOnPath]
  · rw [runOnPath, print_directory_structure, printEvents_eq]
    simp [renderLine]

/-- C6: an empty directory produces exactly one output line, its own
header, and nothing else. -/
theorem empty_directory_single_line (name : String) (indent : Nat) :
    print_directory_structure name [] indent = ["|" ++ dashes indent ++ name] := by
  rw [print_directory_structure, printEvents_eq]
  rfl

/-- C7: a root whose base name begins with a period is still printed: the
hidden check only guards the loop over children, never the header of the
current call. -/
theorem hidden_root_still_printed (name : String) (cs : List Entry) (indent : Nat)
    (h : isHidden name = true) :
    (print_directory_structure name cs indent).head? =
      some ("|" ++ dashes indent ++ name) := by
  rw [print_directory_structure, printEvents_eq]
  rfl

/-- Witness for C7: a hidden root named .git with one child still prints
its header first. -/
theorem hidden_root_still_printed_witness :
    isHidden ".git" = true ∧
    (print_directory_structure ".git" [Entry.file "config"] 0).head? =
      some ("|" ++ dashes 0 ++ ".git") :=
  ⟨by decide, hidden_root_still_printed ".git" [Entry.file "config"] 0 (by decide)⟩

/-- Rendering the loop output and dropping hidden iterations is the same
as filtering to visible entries first and rendering each contribution. -/
theorem map_render_flatten (l : List Entry) (indent : Nat) :
    List.map renderLine ((l.map (fun e => childLines e indent)).flatten)
      = ((l.filter (fun e => !isHidden e.name)).map
          (fun e => List.map renderLine (childBody e indent))).flatten := by
  induction l with
  | nil => rfl
  | cons e rest ih =>
    rw [List.map_cons, List.flatten_cons, List.map_append, List.filter_cons]
    by_cases hh : isHidden e.name = true
    · rw [childLines, if_pos hh, hh]
      simp only [Bool.not_true, Bool.false_eq_true, if_false, List.nil_append]
      exact ih
    · rw [childLines, if_neg hh]
      rw [Bool.not_eq_true] at hh
      rw [hh]
      simp only [Bool.not_false, if_true, List.map_cons, List.flatten_cons]
      rw [ih]

theorem tree_printer_meets_contract_aux :
    ∀ (sz : Nat) (cs : List Entry), sizeOf cs ≤ sz → ∀ (name : String) (indent : Nat),
      print_directory_structure name cs indent = specTreePrinter name cs indent := by
  intro sz
  induction sz using Nat.strong_induction_on with
  | _ sz ih =>
    intro cs hsz name indent
    rw [print_directory_structure, printEvents_eq, specTreePrinter_eq]
    simp only [List.map_cons]
    congr 1
    rw [map_render_flatten]
    apply congrArg
    apply List.map_congr_left
    intro e hemem
    cases e with
    | file n => rfl
    | dir n ds =>
      have hlt : sizeOf ds < sizeOf cs :=
        sizeOf_children_lt (mem_sortedEntries (List.mem_of_mem_filter hemem))
      have hIH := ih (sizeOf ds) (Nat.lt_of_lt_of_le hlt hsz) ds le_rfl n (indent + 4)
      show List.map renderLine (printEvents n ds (indent + 4)) = specTreePrinter n ds (indent + 4)
      rw [← print_directory_structure]
      exact hIH

/-- C1: the implementation meets the stated contract line for line: the
output of print_directory_structure on any directory is the header
followed by, for every entry in sorted order with hidden entries skipped,
the recursive output for a subdirectory at indent + 4 or the single line
for a file at indent + 4, exactly as specTreePrinter words it. -/
theorem tree_printer_meets_contract (name : String) (cs : List Entry) (indent : Nat) :
    print_directory_structure name cs indent = specTreePrinter name cs indent :=
  tree_printer_meets_contract_aux (sizeOf cs) cs le_rfl name indent

theorem printEvents_length_aux :
    ∀ (sz : Nat) (cs : List Entry), sizeOf cs ≤ sz → ∀ (name : String) (indent : Nat),
      (printEvents name cs indent).length ≤ 1 + (cs.map entryCount).sum := by
  intro sz
  induction sz using Nat.strong_induction_on with
  | _ sz ih =>
    intro cs hsz name indent
    rw [printEvents_eq]
    rw [List.length_cons, List.length_flatten, List.map_map]
    have hpt : ((sortedEntries cs).map (List.length ∘ fun e => childLines e indent)).sum
        ≤ ((sortedEntries cs).map entryCount).sum := by
      apply List.sum_le_sum
      intro e hemem
      show (childLines e indent).length ≤ entryCount e
      cases e with
      | file n =>
        rw [childLines_file, entryCount_file]
        by_cases hh : isHidden n = true
        · rw [if_pos hh]
          simp
        · rw [if_neg hh]
          simp
      | dir n ds =>
        rw [childLines_dir, entryCount_dir]
        by_cases hh : isHidden n = true
        · rw [if_pos hh]
          simp
        · rw [if_neg hh]
          exact ih (sizeOf ds)
            (Nat.lt_of_lt_of_le (sizeOf_children_lt (mem_sortedEntries hemem)) hsz)
            ds le_rfl n (indent + 4)
    have hperm : ((sortedEntries cs).map entryCount).sum = (cs.map entryCount).sum :=
      ((sortedEntries_perm cs).map entryCount).sum_eq
    omega

/-- C10: the traversal terminates on every finite tree.  In the embedding
print_directory_structure is a total function, defined by well-founded
recursion on the size of the listing: each recursive call is on the
children of a strict subdirectory, the Lean rendering of "each call
recurses on a strict child".  As a quantitative witness, the output of
any call is finite, bounded by one header plus the number of entries in
the listing's trees. -/
theorem traversal_terminates_output_bounded (name : String) (cs : List Entry) (indent : Nat) :
    (print_directory_structure name cs indent).length ≤ 1 + (cs.map entryCount).sum := by
  rw [print_directory_structure, List.length_map]
  exact printEvents_length_aux (sizeOf cs) cs le_rfl name indent

theorem printEvents_visitDepth_aux :
    ∀ (sz : Nat) (cs : List Entry), sizeOf cs ≤ sz → ∀ (name : String) (d : Nat),
      printEvents name cs (4 * d) =
        (visitDepth name cs d).map (fun p => (⟨4 * p.1, p.2⟩ : OutLine)) := by
  intro sz
  induction sz using Nat.strong_induction_on with
  | _ sz ih =>
    intro cs hsz name d
    rw [printEvents_eq, visitDepth_eq, List.map_cons]
    congr 1
    rw [List.map_flatten, List.map_map]
    apply congrArg List.flatten
    apply List.map_congr_left
    intro e hemem
    show childLines e (4 * d) =
      List.map (fun p => (⟨4 * p.1, p.2⟩ : OutLine))
        (if isHidden e.name then []
         else
           match e with
           | Entry.dir n ds => visitDepth n ds (d + 1)
           | Entry.file n => [(d + 1, n)])
    by_cases hh : isHidden e.name = true
    · rw [childLines, if_pos hh, if_pos hh]
      rfl
    · rw [childLines, if_neg hh, if_neg hh]
      cases e with
      | file n =>
        show [(⟨4 * d + 4, n⟩ : OutLine)] = [⟨4 * (d + 1), n⟩]
        have h4 : 4 * (d + 1) = 4 * d + 4 := by ring
        rw [h4]
      | dir n ds =>
        show printEvents n ds (4 * d + 4) =
          List.map (fun p => (⟨4 * p.1, p.2⟩ : OutLine)) (visitDepth n ds (d + 1))
        have h4 : 4 * d + 4 = 4 * (d + 1) := by ring
        rw [h4]
        exact ih (sizeOf ds)
          (Nat.lt_of_lt_of_le (sizeOf_children_lt (mem_sortedEntries hemem)) hsz)
          ds le_rfl n (d + 1)

/-- C4: in a traversal started at indent 0, every printed line carries
exactly 4 times its nesting depth in dashes: the output is the
depth-annotated visit of the tree with each depth p.1 rendered as
4 * p.1 dashes (the root at depth 0, each child one level deeper). -/
theorem indent_equals_four_times_depth (name : String) (cs : List Entry) :
    print_directory_structure name cs 0 =
      (visitDepth name cs 0).map (fun p => "|" ++ dashes (4 * p.1) ++ p.2) := by
  rw [print_directory_structure]
  rw [show printEvents name cs 0 =
    (visitDepth name cs 0).map (fun p => (⟨4 * p.1, p.2⟩ : OutLine)) from
    printEvents_visitDepth_aux (sizeOf cs) cs le_rfl name 0]
  rw [List.map_map]
  apply List.map_congr_left
  intro p _
  rfl

theorem names_sorted_of_pairwise (l : List Entry) (h : l.Pairwise entryLe) :
    (l.map Entry.name).Sorted (· ≤ ·) := by
  apply List.pairwise_map.mpr
  exact h.imp (fun hab => String.le_iff_toList_le.mpr hab)

/-- The lines of a traversal of ds at indent i + 4 that sit at exactly
indent i + 4 are the header alone: everything below the header is
indented at least i + 8. -/
theorem printEvents_filter_head (n : String) (ds : List Entry) (i : Nat) :
    (printEvents n ds (i + 4)).filter (fun ln => ln.indent == i + 4) = [⟨i + 4, n⟩] := by
  have htail : (((sortedEntries ds).map (fun e => childLines e (i + 4))).flatten.filter
      (fun ln => ln.indent == i + 4)) = [] := by
    apply List.filter_eq_nil_iff.mpr
    intro x hx
    have hge : (i + 4) + 4 ≤ x.indent :=
      printEvents_tail_indent n ds (i + 4) x (by rw [printEvents_eq]; simpa using hx)
    simp only [beq_iff_eq]
    omega
  rw [printEvents_eq]
  rw [List.filter_cons_of_pos (by simp)]
  rw [htail]

/-- In the flattened loop output at indent i, the lines at exactly indent
i + 4 are one per visible entry, carrying the entries' names in order. -/
theorem sibling_lines_lemma (l : List Entry) (indent : Nat) :
    ((l.map (fun e => childLines e indent)).flatten.filter
        (fun ln => ln.indent == indent + 4)).map OutLine.name
      = (l.filter (fun e => !isHidden e.name)).map Entry.name := by
  induction l with
  | nil => rfl
  | cons e rest ih =>
    rw [List.map_cons, List.flatten_cons, List.filter_append, List.map_append, List.filter_cons]
    by_cases hh : isHidden e.name = true
    · rw [childLines, if_pos hh, hh]
      simp only [Bool.not_true, Bool.false_eq_true, if_false, List.filter_nil,
        List.map_nil, List.nil_append]
      exact ih
    · rw [childLines, if_neg hh]
      rw [Bool.not_eq_true] at hh
      rw [hh]
      simp only [Bool.not_false, if_true]
      cases e with
      | file n =>
        show ((List.filter (fun ln => ln.indent == indent + 4) [⟨indent + 4, n⟩]).map
            OutLine.name) ++ _ = _
        rw [List.filter_cons_of_pos (by simp)]
        rw [List.map_cons]
        rw [ih]
        rfl
      | dir n ds =>
        show ((List.filter (fun ln => ln.indent == indent + 4)
            (printEvents n ds (indent + 4))).map OutLine.name) ++ _ = _
        rw [printEvents_filter_head n ds indent]
        rw [List.map_cons]
        rw [ih]
        rfl

/-- C3: the loop enumerates each listing in sorted lexicographic name
order before the hidden filter and the directory/file branching (first
conjunct), so the direct children of a directory appear in the output in
that order: the lines printed at exactly indent + 4 are the visible
entries' names in enumeration order (second conjunct), which is sorted
(third conjunct). -/
theorem siblings_enumerated_sorted (name : String) (cs : List Entry) (indent : Nat) :
    ((sortedEntries cs).map Entry.name).Sorted (· ≤ ·) ∧
    ((printEvents name cs indent).tail.filter
        (fun ln => ln.indent == indent + 4)).map OutLine.name
      = ((sortedEntries cs).filter (fun e => !isHidden e.name)).map Entry.name ∧
    (((sortedEntries cs).filter (fun e => !isHidden e.name)).map Entry.name).Sorted (· ≤ ·) := by
  refine ⟨names_sorted_of_pairwise _ (sortedEntries_pairwise cs), ?_, ?_⟩
  · rw [printEvents_eq]
    simp only [List.tail_cons]
    exact sibling_lines_lemma (sortedEntries cs) indent
  · exact names_sorted_of_pairwise _ ((sortedEntries_pairwise cs).filter _)

theorem entryLe_trans {a b c : Entry} (h : entryLe a b) (h2 : entryLe b c) : entryLe a c :=
  le_trans h h2

theorem pruneEntry_name (e : Entry) : (pruneEntry e).name = e.name := by
  cases e <;> rfl

theorem sortedEntries_cons (x : Entry) (l : List Entry) :
    sortedEntries (x :: l) = (sortedEntries l).orderedInsert entryLe x := rfl

theorem sortedEntries_map_pruneEntry (l : List Entry) :
    sortedEntries (l.map pruneEntry) = (sortedEntries l).map pruneEntry := by
  rw [sortedEntries, sortedEntries]
  refine (List.map_insertionSort entryLe entryLe pruneEntry l ?_).symm
  intro a _ b _
  rw [entryLe, entryLe, pruneEntry_name, pruneEntry_name]

theorem filter_orderedInsert_neg (p : Entry → Bool) (a : Entry) (l : List Entry)
    (hpa : p a = false) :
    (l.orderedInsert entryLe a).filter p = l.filter p := by
  induction l with
  | nil => simp [hpa]
  | cons b rest ih =>
    by_cases hab : entryLe a b
    · simp only [List.orderedInsert, if_pos hab, List.filter_cons]
      by_cases hpb : p b = true <;> simp [hpa, hpb]
    · simp only [List.orderedInsert, if_neg hab, List.filter_cons]
      by_cases hpb : p b = true <;> simp [hpa, hpb, ih]

theorem filter_orderedInsert_pos (p : Entry → Bool) (a : Entry) :
    ∀ (l : List Entry), l.Pairwise entryLe → p a = true →
      (l.orderedInsert entryLe a).filter p = (l.filter p).orderedInsert entryLe a := by
  intro l
  induction l with
  | nil =>
    intro _ hpa
    simp [hpa]
  | cons b rest ih =>
    intro hl hpa
    rcases List.pairwise_cons.mp hl with ⟨hb, hrest⟩
    by_cases hab : entryLe a b
    · simp only [List.orderedInsert, if_pos hab, List.filter_cons]
      by_cases hpb : p b = true
      · simp [hpa, hpb, List.orderedInsert_of_le entryLe (rest.filter p) hab]
      · cases hfil : rest.filter p with
        | nil => simp [hpa, hpb, hfil]
        | cons c cl =>
          have hc : c ∈ rest := List.mem_of_mem_filter (hfil ▸ List.mem_cons_self c cl)
          have hac : entryLe a c := entryLe_trans hab (hb c hc)
          simp [hpa, hpb, hfil, List.orderedInsert_of_le entryLe cl hac]
    · simp only [List.orderedInsert, if_neg hab, List.filter_cons]
      by_cases hpb : p b = true
      · simp [hpb, ih hrest hpa, List.orderedInsert, if_neg hab]
      · simp [hpb, ih hrest hpa]

theorem sortedEntries_filter (p : Entry → Bool) (l : List Entry) :
    sortedEntries (l.filter p) = (sortedEntries l).filter p := by
  induction l with
  | nil => rfl
  | cons x rest ih =>
    rw [List.filter_cons]
    by_cases hpx : p x = true
    · rw [if_pos hpx, sortedEntries_cons, sortedEntries_cons, ih]
      exact (filter_orderedInsert_pos p x (sortedEntries rest)
        (sortedEntries_pairwise rest) hpx).symm
    · rw [if_neg hpx, sortedEntries_cons, ih]
      have hpx2 : p x = false := by simpa using hpx
      exact (filter_orderedInsert_neg p x (sortedEntries rest) hpx2).symm

theorem prune_aux :
    ∀ (sz : Nat) (cs : List Entry), sizeOf cs ≤ sz → ∀ (name : String) (indent : Nat),
      printEvents name (pruneList cs) indent = printEvents name cs indent := by
  intro sz
  induction sz using Nat.strong_induction_on with
  | _ sz ih =>
    intro cs hsz name indent
    rw [printEvents_eq, printEvents_eq]
    congr 1
    rw [pruneList_eq, sortedEntries_map_pruneEntry, sortedEntries_filter, List.map_map]
    rw [show (((sortedEntries cs).map (fun e => childLines e indent)).flatten)
        = (((sortedEntries cs).filter (fun e => !isHidden e.name)).map
            (fun e => childBody e indent)).flatten from
      flatten_map_hidden_filter (sortedEntries cs) (fun e => childBody e indent)]
    apply congrArg List.flatten
    apply List.map_congr_left
    intro e hemem
    have hvis : isHidden e.name = false := by
      have hmem2 := List.of_mem_filter hemem
      simpa using hmem2
    show childLines (pruneEntry e) indent = childBody e indent
    cases e with
    | file n =>
      rw [childLines]
      simp [pruneEntry, hvis]
    | dir n ds =>
      show childLines (Entry.dir n (pruneList ds)) indent = childBody (Entry.dir n ds) indent
      have hvis2 : isHidden n = false := by simpa [Entry.name] using hvis
      rw [childLines,
        if_neg (by simp [Entry.name, hvis2] :
          ¬ isHidden (Entry.dir n (pruneList ds)).name = true)]
      show printEvents n (pruneList ds) (indent + 4) = printEvents n ds (indent + 4)
      exact ih (sizeOf ds)
        (Nat.lt_of_lt_of_le
          (sizeOf_children_lt (mem_sortedEntries (List.mem_of_mem_filter hemem))) hsz)
        ds le_rfl n (indent + 4)

/-- C9: skipping a hidden directory prunes its whole subtree.  The output
of a traversal is unchanged when every hidden entry, its entire subtree
included, is removed from the tree first: nothing below a hidden child is
ever visited or printed, visible names inside or not, because the
recursive call for a hidden directory is never made. -/
theorem hidden_directory_subtree_pruned (name : String) (cs : List Entry) (indent : Nat) :
    print_directory_structure name cs indent
      = print_directory_structure name (pruneList cs) indent := by
  rw [print_directory_structure, print_directory_structure]
  rw [prune_aux (sizeOf cs) cs le_rfl name indent]

theorem sameTree_name {a b : Entry} (h : SameTree a b) : a.name = b.name := by
  cases h <;> rfl

theorem sameForest_names {l l2 : List Entry} (h : SameForest l l2) :
    l.map Entry.name = l2.map Entry.name := by
  induction l generalizing l2 with
  | nil =>
    cases h
    rfl
  | cons a rest ih =>
    cases h with
    | cons hab hrest =>
      rw [List.map_cons, List.map_cons, sameTree_name hab, ih hrest]

theorem sameForest_orderedInsert {a b : Entry} (hab : SameTree a b) :
    ∀ {l l2 : List Entry}, SameForest l l2 →
      SameForest (l.orderedInsert entryLe a) (l2.orderedInsert entryLe b) := by
  intro l
  induction l with
  | nil =>
    intro l2 h
    cases h
    exact SameForest.cons hab SameForest.nil
  | cons c rest ih =>
    intro l2 h
    cases h with
    | cons hcd hrest =>
      rename_i d ds
      by_cases hac : entryLe a c
      · have hbd : entryLe b d := by
          rw [entryLe, ← sameTree_name hab, ← sameTree_name hcd]
          exact hac
        simp only [List.orderedInsert, if_pos hac, if_pos hbd]
        exact SameForest.cons hab (SameForest.cons hcd hrest)
      · have hbd : ¬ entryLe b d := by
          rw [entryLe, ← sameTree_name hab, ← sameTree_name hcd]
          exact hac
        simp only [List.orderedInsert, if_neg hac, if_neg hbd]
        exact SameForest.cons hcd (ih hrest)

theorem sameForest_sortedEntries {l l2 : List Entry} (h : SameForest l l2) :
    SameForest (sortedEntries l) (sortedEntries l2) := by
  induction l generalizing l2 with
  | nil =>
    cases h
    exact SameForest.nil
  | cons a rest ih =>
    cases h with
    | cons hab hrest =>
      rw [sortedEntries_cons, sortedEntries_cons]
      exact sameForest_orderedInsert hab (ih hrest)

theorem sortedEntries_pairwise_lt (l : List Entry) (hnd : (l.map Entry.name).Nodup) :
    (sortedEntries l).Pairwise entryLt := by
  have hle := sortedEntries_pairwise l
  have hnd2 : ((sortedEntries l).map Entry.name).Nodup :=
    (List.Perm.nodup_iff ((sortedEntries_perm l).map Entry.name)).mpr hnd
  have hne : (sortedEntries l).Pairwise (fun a b => a.name ≠ b.name) :=
    List.pairwise_map.mp hnd2
  exact (hle.and hne).imp
    (fun hab => lt_of_le_of_ne hab.1 (fun heq => hab.2 (String.toList_inj.mp heq)))

/-- With pairwise distinct names, the sorted order of a listing does not
depend on the enumeration order os.listdir produced. -/
theorem sortedEntries_perm_nodup (ds es : List Entry) (hperm : ds.Perm es)
    (hnd : (ds.map Entry.name).Nodup) : sortedEntries ds = sortedEntries es := by
  have hp : (sortedEntries ds).Perm (sortedEntries es) :=
    (sortedEntries_perm ds).trans (hperm.trans (sortedEntries_perm es).symm)
  have hnd2 : (es.map Entry.name).Nodup := (List.Perm.nodup_iff (hperm.map Entry.name)).mp hnd
  exact List.eq_of_perm_of_sorted hp (sortedEntries_pairwise_lt ds hnd)
    (sortedEntries_pairwise_lt es hnd2)

theorem uniqueForest_mem {cs : List Entry} (h : UniqueForest cs) {e : Entry} (he : e ∈ cs) :
    UniqueNames e := by
  induction cs with
  | nil => cases he
  | cons a rest ih =>
    cases h with
    | cons ha hrest =>
      rcases List.mem_cons.mp he with he | he
      · rw [he]
        exact ha
      · exact ih hrest he

theorem same_tree_aux :
    ∀ (sz : Nat) (cs : List Entry), sizeOf cs ≤ sz →
      ∀ (ds es : List Entry) (name : String) (indent : Nat),
        (cs.map Entry.name).Nodup → UniqueForest cs → SameForest cs ds → ds.Perm es →
        printEvents name cs indent = printEvents name es indent := by
  intro sz
  induction sz using Nat.strong_induction_on with
  | _ sz ih =>
    intro cs hsz ds es name indent hnd huf hsf hperm
    have hnd_ds : (ds.map Entry.name).Nodup := by
      rw [← sameForest_names hsf]
      exact hnd
    have heqsort : sortedEntries ds = sortedEntries es :=
      sortedEntries_perm_nodup ds es hperm hnd_ds
    have hsf3 : SameForest (sortedEntries cs) (sortedEntries es) :=
      heqsort ▸ sameForest_sortedEntries hsf
    rw [printEvents_eq, printEvents_eq]
    congr 1
    have hmain : ∀ (l l2 : List Entry), SameForest l l2 → (∀ x, x ∈ l → x ∈ cs) →
        (l.map (fun e => childLines e indent)).flatten
          = (l2.map (fun e => childLines e indent)).flatten := by
      intro l
      induction l with
      | nil =>
        intro l2 hsf4 _
        cases hsf4
        rfl
      | cons a rest ihl =>
        intro l2 hsf4 hsub
        cases hsf4 with
        | cons hab hrest =>
          rename_i b bs
          rw [List.map_cons, List.map_cons, List.flatten_cons, List.flatten_cons]
          have hhead : childLines a indent = childLines b indent := by
            cases hab with
            | file n => rfl
            | dir n cs1 ds1 es1 hf hp =>
              rw [childLines, childLines]
              by_cases hh : isHidden (Entry.dir n cs1).name = true
              · rw [if_pos hh, if_pos (by simpa [Entry.name] using hh :
                  isHidden (Entry.dir n es1).name = true)]
              · rw [if_neg hh, if_neg (by simpa [Entry.name] using hh :
                  ¬ isHidden (Entry.dir n es1).name = true)]
                show printEvents n cs1 (indent + 4) = printEvents n es1 (indent + 4)
                have hmem : Entry.dir n cs1 ∈ cs :=
                  hsub _ (List.mem_cons_self (Entry.dir n cs1) rest)
                have hun : UniqueNames (Entry.dir n cs1) := uniqueForest_mem huf hmem
                cases hun with
                | dir n2 cs3 hnd1 huf1 =>
                  exact ih (sizeOf cs1)
                    (Nat.lt_of_lt_of_le (sizeOf_children_lt hmem) hsz)
                    cs1 le_rfl ds1 es1 n (indent + 4) hnd1 huf1 hf hp
          rw [hhead, ihl bs hrest (fun x hx => hsub x (List.mem_cons_of_mem a hx))]
    exact hmain (sortedEntries cs) (sortedEntries es) hsf3
      (fun x hx => mem_sortedEntries hx)

/-- C8: the traversal is deterministic, its output depending only on the
directory tree.  Two runs on one unchanged root observe listings that are
permutations of pointwise-same subtrees (SameTree) with the names in each
directory pairwise distinct (UniqueNames, as on a real filesystem), and
such runs produce byte-identical output: sorted() cancels whatever
enumeration order os.listdir returned. -/
theorem same_tree_identical_output (name : String) (cs cs2 : List Entry) (indent : Nat)
    (hu : UniqueNames (Entry.dir name cs))
    (hs : SameTree (Entry.dir name cs) (Entry.dir name cs2)) :
    print_directory_structure name cs indent = print_directory_structure name cs2 indent := by
  cases hs with
  | dir n cs ds es hsf hperm =>
    cases hu with
    | dir n2 cs3 hnd huf =>
      rw [print_directory_structure, print_directory_structure]
      rw [same_tree_aux (sizeOf cs) cs le_rfl ds cs2 name indent hnd huf hsf hperm]

/-- Witness for C8: two enumerations of one directory holding the files
a.txt and b.txt, listed in the two possible orders, print identically. -/
theorem same_tree_identical_output_witness :
    UniqueNames (Entry.dir "r" [Entry.file "b.txt", Entry.file "a.txt"]) ∧
    SameTree (Entry.dir "r" [Entry.file "b.txt", Entry.file "a.txt"])
      (Entry.dir "r" [Entry.file "a.txt", Entry.file "b.txt"]) ∧
    print_directory_structure "r" [Entry.file "b.txt", Entry.file "a.txt"] 0
      = print_directory_structure "r" [Entry.file "a.txt", Entry.file "b.txt"] 0 := by
  have h1 : UniqueNames (Entry.dir "r" [Entry.file "b.txt", Entry.file "a.txt"]) :=
    UniqueNames.dir "r" _ (by decide)
      (UniqueForest.cons (UniqueNames.file "b.txt")
        (UniqueForest.cons (UniqueNames.file "a.txt") UniqueForest.nil))
  have h2 : SameTree (Entry.dir "r" [Entry.file "b.txt", Entry.file "a.txt"])
      (Entry.dir "r" [Entry.file "a.txt", Entry.file "b.txt"]) :=
    SameTree.dir "r" _ [Entry.file "b.txt", Entry.file "a.txt"] _
      (SameForest.cons (SameTree.file "b.txt")
        (SameForest.cons (SameTree.file "a.txt") SameForest.nil))
      (List.Perm.swap (Entry.file "a.txt") (Entry.file "b.txt") [])
  exact ⟨h1, h2, same_tree_identical_output "r" _ _ 0 h1 h2⟩

end DirPrinter
